import Mathlib

/-!
# Verification of the Weighted-Binary-String instance generator

Shallow embedding of `src/InstanceGenerator/InstanceGenerator.py`.

Modelling conventions:

* Integer weights (`discrete=True`) are `Int`; floating-point weights
  (`discrete=False`) are modelled as `ℚ` with explicit two-decimal rounding
  (`np.round(·, 2)` at `ℚ` precision).
* `np.random.randint(lo, hi)` is modelled as `lo + r % (hi - lo)` where
  `r : Nat` is raw entropy: as `r` ranges over `Nat` this realises exactly the
  support `[lo, hi)` of the numpy call.  `np.random.randint` raises
  `ValueError` when `lo >= hi` (independently of the requested size); this is
  the `SampleOut.valueError` outcome.
* `np.random.uniform(lo, hi)` draws are oracle values `u : Nat → ℚ`; theorems
  constrain them to the support `[lo, hi)`.
* The unguarded `while mask.any()` re-sampling loops are instrumented with
  fuel; `SampleOut.fuelOut` means the loop has not finished within the given
  number of iterations.  A result that is `fuelOut` for every fuel is a loop
  that never terminates.
-/

namespace WBS

/-- Round-half-to-even to the nearest integer (banker's rounding), the
rounding mode used by Python's built-in `round` and by `np.round` at
integer precision. -/
def roundE (x : ℚ) : Int :=
  let f := ⌊x⌋
  let r := x - f
  if r < 1/2 then f
  else if 1/2 < r then f + 1
  else if f % 2 = 0 then f else f + 1

/-- Model of `np.round(x, 2)`: round to two decimal places. -/
def round2 (x : ℚ) : ℚ := (roundE (100 * x) : ℚ) / 100

/-- Line 106: `optimal_gene = (weights > 0).astype(int)`. -/
def optimal_gene (w : List ℚ) : List Nat :=
  w.map (fun x => if 0 < x then 1 else 0)

/-- Line 107: `max_fitness = weights[optimal_gene == 1].sum()` — the sum of
the weights at the positions whose optimal-gene bit is `1`. -/
def max_fitness (w : List ℚ) : ℚ :=
  (((w.zip (optimal_gene w)).filter (fun p => p.2 == 1)).map (fun p => p.1)).sum

/-- The fitness `sum(weights[i] * g[i])` of an arbitrary bit string `g`
against the weight vector `w` (positions beyond the shorter list ignored,
as both always have equal length). -/
def fitness (w : List ℚ) (g : List Nat) : ℚ :=
  ((w.zip g).map (fun p => p.1 * (p.2 : ℚ))).sum

theorem optimal_gene_cons (x : ℚ) (xs : List ℚ) :
    optimal_gene (x :: xs) = (if 0 < x then 1 else 0) :: optimal_gene xs := rfl

theorem max_fitness_nil : max_fitness [] = 0 := rfl

theorem max_fitness_cons (x : ℚ) (xs : List ℚ) :
    max_fitness (x :: xs) = (if 0 < x then x else 0) + max_fitness xs := by
  by_cases hx : 0 < x <;>
    simp [max_fitness, optimal_gene_cons, hx, List.filter_cons]

theorem fitness_cons (x : ℚ) (xs : List ℚ) (b : Nat) (g : List Nat) :
    fitness (x :: xs) (b :: g) = x * b + fitness xs g := by
  simp [fitness]

theorem fitness_optimal (w : List ℚ) :
    fitness w (optimal_gene w) = max_fitness w := by
  induction w with
  | nil => rfl
  | cons x xs ih =>
    rw [optimal_gene_cons, fitness_cons, max_fitness_cons, ih]
    by_cases hx : 0 < x <;> simp [hx]

theorem fitness_le_max (w : List ℚ) (g : List Nat)
    (hb : ∀ b ∈ g, b = 0 ∨ b = 1) : fitness w g ≤ max_fitness w := by
  induction w generalizing g with
  | nil => simp [fitness, max_fitness]
  | cons x xs ih =>
    cases g with
    | nil =>
      have h0 : fitness (x :: xs) [] = 0 := rfl
      rw [h0, max_fitness_cons]
      have h1 : (0 : ℚ) ≤ (if 0 < x then x else 0) := by
        by_cases hx : 0 < x <;> simp [hx]
        linarith
      have h2 : (0 : ℚ) ≤ max_fitness xs := by
        have := ih [] (by simp)
        simpa [fitness] using this
      linarith
    | cons b g =>
      rw [fitness_cons, max_fitness_cons]
      have hb1 : b = 0 ∨ b = 1 := hb b (by simp)
      have hrest : ∀ c ∈ g, c = 0 ∨ c = 1 := fun c hc => hb c (by simp [hc])
      have hxb : x * (b : ℚ) ≤ (if 0 < x then x else 0) := by
        rcases hb1 with h0 | h1
        · subst h0
          by_cases hx : 0 < x <;> simp [hx]
          linarith
        · subst h1
          by_cases hx : 0 < x <;> simp [hx]
          linarith
      have := ih g hrest
      linarith

/-- C1: the stored fitness of a generated instance is the sum of the weights
at positions with gene bit `1`, and it is the maximum of
`sum(weights[i] * g[i])` over all bit strings `g` of the same length. -/
theorem claim_C1 (w : List ℚ) :
    max_fitness w = fitness w (optimal_gene w) ∧
    ∀ g : List Nat, g.length = w.length → (∀ b ∈ g, b = 0 ∨ b = 1) →
      fitness w g ≤ max_fitness w :=
  ⟨(fitness_optimal w).symm, fun g _ hb => fitness_le_max w g hb⟩

/-- Witness for C1 at the concrete instance `w = [2, -1]`, `g = [1, 1]`. -/
theorem claim_C1_witness :
    max_fitness [2, -1] = fitness [2, -1] (optimal_gene [2, -1]) ∧
    fitness [2, -1] [1, 1] ≤ max_fitness [2, -1] :=
  ⟨(claim_C1 [2, -1]).1,
   (claim_C1 [2, -1]).2 [1, 1] (by decide) (by decide)⟩

/-- Outcome of one sampling call: a produced weight vector, a `ValueError`
raised by `np.random.randint` on an empty range, or exhaustion of the fuel
bounding the (potentially non-terminating) no-zero re-sampling loop. -/
inductive SampleOut (α : Type) where
  | ok : α → SampleOut α
  | valueError : SampleOut α
  | fuelOut : SampleOut α
deriving DecidableEq

/-- One draw of `np.random.randint(lo, hi)` (support `[lo, hi)`), from raw
entropy `r`.  Callers must check `lo < hi` first, as the numpy call does. -/
def randintDraw (lo hi : Int) (r : Nat) : Int :=
  lo + ((r % (hi - lo).toNat : Nat) : Int)

/-- Model of `weights[mask] = draws` where `mask = weights == 0`: the zero entries of
`w` are replaced, in index order, by `draws k, draws (k+1), …`; every
non-zero entry is kept unchanged (lines 152–159 and 191–198). -/
def fillZeros {α : Type} [Zero α] [DecidableEq α] (draws : Nat → α) :
    List α → Nat → List α
  | [], _ => []
  | x :: xs, k =>
      if x = 0 then draws k :: fillZeros draws xs (k + 1)
      else x :: fillZeros draws xs k

/-- The unguarded `while mask.any(): …` re-sampling loop, instrumented with
fuel.  `redraw i w` is the loop body at iteration `i` (a `fillZeros` with
that iteration's fresh draws). -/
def noZeroLoop {α : Type} [Zero α] [DecidableEq α]
    (redraw : Nat → List α → List α) : Nat → Nat → List α → SampleOut (List α)
  | 0, _, w => if w.any (fun x => decide (x = 0)) then .fuelOut else .ok w
  | fuel + 1, iter, w =>
      if w.any (fun x => decide (x = 0)) then
        noZeroLoop redraw fuel (iter + 1) (redraw iter w)
      else .ok w

/-- Line 172: `pos_cnt = int(round(pos_percentage / 100 * length))`
(Python `round` is round-half-to-even). -/
def posCount (P : ℚ) (length : Nat) : Int := roundE (P / 100 * length)

/-- Model of `_sample_weights` (lines 143–160), discrete branch:
`np.random.randint(min_w, max_w + 1, length)` followed by the optional
no-zero loop.  `raw0 k` is the raw entropy of the initial draw at position
`k`; `rawL i k` that of the `k`-th re-drawn position in loop iteration `i`. -/
def sample_weights_D (min_w max_w : Int) (length : Nat) (no_zero : Bool)
    (raw0 : Nat → Nat) (rawL : Nat → Nat → Nat) (fuel : Nat) :
    SampleOut (List Int) :=
  if min_w < max_w + 1 then
    let w0 := (List.range length).map (fun k => randintDraw min_w (max_w + 1) (raw0 k))
    if no_zero then
      noZeroLoop
        (fun iter w =>
          fillZeros (fun k => randintDraw min_w (max_w + 1) (rawL iter k)) w 0)
        fuel 0 w0
    else .ok w0
  else .valueError

/-- Model of `_sample_weights`, continuous branch:
`np.round(np.random.uniform(min_w, max_w, length), 2)` followed by the
optional no-zero loop.  `u0 k` / `uL i k` are the uniform draws themselves;
theorems constrain them to `[min_w, max_w)`, the support of
`np.random.uniform`, so `min_w`/`max_w` appear only in those constraints. -/
def sample_weights_C (length : Nat) (no_zero : Bool)
    (u0 : Nat → ℚ) (uL : Nat → Nat → ℚ) (fuel : Nat) : SampleOut (List ℚ) :=
  let w0 := (List.range length).map (fun k => round2 (u0 k))
  if no_zero then
    noZeroLoop
      (fun iter w => fillZeros (fun k => round2 (uL iter k)) w 0)
      fuel 0 w0
  else .ok w0

/-- Initial fill of `_sample_with_ratio` (lines 163–199), discrete branch.  `perm` models
`indices = np.random.permutation(length)`.  The numpy fancy assignments
`weights[indices[:pos_cnt]] = posArr` and `weights[indices[pos_cnt:]] = negArr`
give position `j` the `k`-th positive draw when `k = perm.indexOf j < pos_cnt`,
the `(k - pos_cnt)`-th negative draw when `pos_cnt ≤ k < perm.length`, and
leave the `np.zeros` default otherwise (never reached when `perm` is a
permutation of `range length`).  The positive part is drawn by
`np.random.randint(1 if no_zero else 0, max_w + 1, pos_cnt)` and raises
`ValueError` when that range is empty; then the negative part
`np.random.randint(min_w, 0, neg_cnt)` raises when `min_w ≥ 0` (numpy checks
`low < high` regardless of the requested size).  The no-zero loop re-draws
with lower bound `min_w if mask.any() else 1`, evaluated on the current
mask (lines 191–198). -/
def ratioVal (min_w max_w lowPos : Int) (pos_cnt : Nat) (perm : List Nat)
    (rawPos rawNeg : Nat → Nat) (j : Nat) : Int :=
  let k := perm.indexOf j
  if k < pos_cnt then randintDraw lowPos (max_w + 1) (rawPos k)
  else if k < perm.length then randintDraw min_w 0 (rawNeg (k - pos_cnt))
  else 0

def ratioInit (min_w max_w lowPos : Int) (length pos_cnt : Nat)
    (perm : List Nat) (rawPos rawNeg : Nat → Nat) : List Int :=
  (List.range length).map (ratioVal min_w max_w lowPos pos_cnt perm rawPos rawNeg)

/-- Model of `_sample_with_ratio`, discrete branch: `ratioInit` followed by the
optional no-zero loop; see `ratioInit` for the draw layout and the
`ValueError` conditions of the two `np.random.randint` calls. -/
def sample_with_ratio_D (min_w max_w : Int) (length : Nat) (P : ℚ)
    (no_zero : Bool) (perm : List Nat) (rawPos rawNeg : Nat → Nat)
    (rawL : Nat → Nat → Nat) (fuel : Nat) : SampleOut (List Int) :=
  let pos_cnt := (posCount P length).toNat
  let lowPos : Int := if no_zero then 1 else 0
  if lowPos < max_w + 1 then
    if min_w < 0 then
      let w0 := ratioInit min_w max_w lowPos length pos_cnt perm rawPos rawNeg
      if no_zero then
        noZeroLoop
          (fun iter w =>
            let lower : Int := if w.any (fun x => decide (x = 0)) then min_w else 1
            fillZeros (fun k => randintDraw lower (max_w + 1) (rawL iter k)) w 0)
          fuel 0 w0
      else .ok w0
    else .valueError
  else .valueError

/-- Reference variant for C9: identical to `sample_with_ratio_D` except that
the re-sampling lower bound is unconditionally `min_w`, i.e. the dead
`else 1` branch of `min_w if mask.any() else 1` is removed. -/
def sample_with_ratio_D_fullRange (min_w max_w : Int) (length : Nat) (P : ℚ)
    (no_zero : Bool) (perm : List Nat) (rawPos rawNeg : Nat → Nat)
    (rawL : Nat → Nat → Nat) (fuel : Nat) : SampleOut (List Int) :=
  let pos_cnt := (posCount P length).toNat
  let lowPos : Int := if no_zero then 1 else 0
  if lowPos < max_w + 1 then
    if min_w < 0 then
      let w0 := ratioInit min_w max_w lowPos length pos_cnt perm rawPos rawNeg
      if no_zero then
        noZeroLoop
          (fun iter w =>
            fillZeros (fun k => randintDraw min_w (max_w + 1) (rawL iter k)) w 0)
          fuel 0 w0
      else .ok w0
    else .valueError
  else .valueError

/-- Per-position value of the initial fill of `_sample_with_ratio`,
continuous branch (lines 172–189): the numpy fancy assignments
`weights[indices[:pos_cnt]] = np.round(np.random.uniform(0, max_w, pos_cnt), 2)`
and `weights[indices[pos_cnt:]] = np.round(np.random.uniform(min_w, 0, neg_cnt), 2)`
give position `j` the rounded `k`-th positive uniform draw when
`k = perm.indexOf j < pos_cnt`, the rounded `(k - pos_cnt)`-th negative
draw when `pos_cnt ≤ k < perm.length`, and leave the `np.zeros` default
otherwise.  As in `sample_weights_C`, the uniform draws `uPos`/`uNeg` are
oracle values; theorems constrain them to the supports `[0, max_w)` and
`[min_w, 0)` of the two `np.random.uniform` calls. -/
def ratioValC (pos_cnt : Nat) (perm : List Nat) (uPos uNeg : Nat → ℚ)
    (j : Nat) : ℚ :=
  let k := perm.indexOf j
  if k < pos_cnt then round2 (uPos k)
  else if k < perm.length then round2 (uNeg (k - pos_cnt))
  else 0

def ratioInitC (length pos_cnt : Nat) (perm : List Nat)
    (uPos uNeg : Nat → ℚ) : List ℚ :=
  (List.range length).map (ratioValC pos_cnt perm uPos uNeg)

/-- Model of `_sample_with_ratio` (lines 163–199), continuous branch:
`ratioInitC` followed by the optional no-zero loop, whose re-draws are
`np.round(np.random.uniform(min_w, max_w, mask.sum()), 2)` (line 197);
`uL i k` is the uniform draw for the `k`-th re-drawn position of loop
iteration `i`, constrained by theorems to `[min_w, max_w)`.  No
`np.random.uniform` call can raise, so there is no error outcome. -/
def sample_with_ratio_C (length : Nat) (P : ℚ) (no_zero : Bool)
    (perm : List Nat) (uPos uNeg : Nat → ℚ) (uL : Nat → Nat → ℚ)
    (fuel : Nat) : SampleOut (List ℚ) :=
  let pos_cnt := (posCount P length).toNat
  let w0 := ratioInitC length pos_cnt perm uPos uNeg
  if no_zero then
    noZeroLoop
      (fun iter w => fillZeros (fun k => round2 (uL iter k)) w 0)
      fuel 0 w0
  else .ok w0

/-- Model of `_next_available_index` (lines 202–207): scan `i = 0, 1, 2, …` and return
the first `i` such that `instance_i.csv` does not exist.  The directory is
modelled as the finite set `used` of indices already taken; the scanning
while-loop returns the least natural number outside `used`. -/
def next_available_index (used : Finset Nat) : Nat :=
  Nat.find used.exists_not_mem

/-- Lines 112–114 iterated over `num_instances` writes: starting from the set
`used` of existing files, repeatedly pick `next_available_index` and create
that file.  Returns the list of indices written, in order, and the final
directory contents. -/
def writeIndices (used : Finset Nat) : Nat → List Nat × Finset Nat
  | 0 => ([], used)
  | n + 1 =>
      let i := next_available_index used
      let rest := writeIndices (insert i used) n
      (i :: rest.1, rest.2)

/-- Python `str(bool)`. -/
def pyBool (b : Bool) : String := if b then "True" else "False"

/-- Python f-string rendering of an optional value (already stringified when
present): `None` renders as the four-letter string `"None"`. -/
def pyOpt : Option String → String
  | none => "None"
  | some s => s

/-- Lines 116–125: the nine `fp.write` calls of the per-instance CSV, as
(key, value) pairs in write order.  Numeric values are taken already
rendered (`String`), since only their placement is at issue here. -/
def instance_file_fields (maxFitness : String) (length : Nat)
    (min_w max_w : String) (discrete no_zero : Bool)
    (pos_percentage : Option String) (genes : List Nat)
    (weights : List String) : List (String × String) :=
  [("Max Fitness", maxFitness),
   ("String Length", toString length),
   ("Min Weight", min_w),
   ("Max Weight", max_w),
   ("Discrete", pyBool discrete),
   ("No Zero", pyBool no_zero),
   ("Pos Percentage", pyOpt pos_percentage),
   ("Genes", String.intercalate "," (genes.map toString)),
   ("Weights", String.intercalate "," weights)]

/-- The per-instance file as a list of lines, each `key ++ "," ++ value`. -/
def instance_file_lines (maxFitness : String) (length : Nat)
    (min_w max_w : String) (discrete no_zero : Bool)
    (pos_percentage : Option String) (genes : List Nat)
    (weights : List String) : List String :=
  (instance_file_fields maxFitness length min_w max_w discrete no_zero
      pos_percentage genes weights).map (fun kv => kv.1 ++ "," ++ kv.2)

theorem fillZeros_cons_zero {α : Type} [Zero α] [DecidableEq α]
    (draws : Nat → α) (y : α) (ys : List α) (k : Nat) (hy : y = 0) :
    fillZeros draws (y :: ys) k = draws k :: fillZeros draws ys (k + 1) := by
  simp [fillZeros, hy]

theorem fillZeros_cons_ne {α : Type} [Zero α] [DecidableEq α]
    (draws : Nat → α) (y : α) (ys : List α) (k : Nat) (hy : y ≠ 0) :
    fillZeros draws (y :: ys) k = y :: fillZeros draws ys k := by
  simp [fillZeros, hy]

theorem noZeroLoop_zero_stop {α : Type} [Zero α] [DecidableEq α]
    (redraw : Nat → List α → List α) (iter : Nat) (w : List α)
    (hz : w.any (fun x => decide (x = 0)) = true) :
    noZeroLoop redraw 0 iter w = .fuelOut := by
  simp [noZeroLoop, hz]

theorem noZeroLoop_succ_step {α : Type} [Zero α] [DecidableEq α]
    (redraw : Nat → List α → List α) (n iter : Nat) (w : List α)
    (hz : w.any (fun x => decide (x = 0)) = true) :
    noZeroLoop redraw (n + 1) iter w =
      noZeroLoop redraw n (iter + 1) (redraw iter w) := by
  simp [noZeroLoop, hz]

theorem noZeroLoop_done {α : Type} [Zero α] [DecidableEq α]
    (redraw : Nat → List α → List α) (fuel iter : Nat) (w : List α)
    (hz : w.any (fun x => decide (x = 0)) = false) :
    noZeroLoop redraw fuel iter w = .ok w := by
  cases fuel <;> simp [noZeroLoop, hz]

theorem fillZeros_length {α : Type} [Zero α] [DecidableEq α] (draws : Nat → α)
    (w : List α) : ∀ k, (fillZeros draws w k).length = w.length := by
  induction w with
  | nil => intro k; rfl
  | cons x xs ih =>
      intro k
      by_cases hx : x = 0
      · rw [fillZeros_cons_zero draws x xs k hx]
        simp [ih]
      · rw [fillZeros_cons_ne draws x xs k hx]
        simp [ih]

/-- Re-sampling touches only the zero positions: a non-zero entry is kept. -/
theorem fillZeros_keeps_nonzero {α : Type} [Zero α] [DecidableEq α]
    (draws : Nat → α) (w : List α) :
    ∀ (k i : Nat) (x : α), w[i]? = some x → x ≠ 0 →
      (fillZeros draws w k)[i]? = some x := by
  induction w with
  | nil => intro k i x h _; simp at h
  | cons y ys ih =>
      intro k i x h hx
      by_cases hy : y = 0
      · rw [fillZeros_cons_zero draws y ys k hy]
        cases i with
        | zero =>
            simp only [List.getElem?_cons_zero, Option.some.injEq] at h
            exact absurd (hy ▸ h.symm) hx
        | succ i =>
            simp only [List.getElem?_cons_succ] at h ⊢
            exact ih _ i x h hx
      · rw [fillZeros_cons_ne draws y ys k hy]
        cases i with
        | zero => simpa using h
        | succ i =>
            simp only [List.getElem?_cons_succ] at h ⊢
            exact ih _ i x h hx

/-- One re-sampling pass can only shrink the set of zero positions. -/
theorem fillZeros_zero_subset {α : Type} [Zero α] [DecidableEq α]
    (draws : Nat → α) (w : List α) :
    ∀ (k i : Nat), (fillZeros draws w k)[i]? = some 0 → w[i]? = some 0 := by
  induction w with
  | nil => intro k i h; simp [fillZeros] at h
  | cons y ys ih =>
      intro k i h
      by_cases hy : y = 0
      · rw [fillZeros_cons_zero draws y ys k hy] at h
        cases i with
        | zero => simp [hy]
        | succ i =>
            simp only [List.getElem?_cons_succ] at h ⊢
            exact ih _ i h
      · rw [fillZeros_cons_ne draws y ys k hy] at h
        cases i with
        | zero =>
            simp only [List.getElem?_cons_zero, Option.some.injEq] at h
            exact absurd h hy
        | succ i =>
            simp only [List.getElem?_cons_succ] at h ⊢
            exact ih _ i h

theorem any_zero_eq_false {α : Type} [Zero α] [DecidableEq α] (w : List α) :
    (w.any (fun x => decide (x = 0)) = false) ↔ ∀ x ∈ w, x ≠ 0 := by
  simp

/-- A value returned by the no-zero loop contains no zero entry. -/
theorem noZeroLoop_ok_no_zero {α : Type} [Zero α] [DecidableEq α]
    (redraw : Nat → List α → List α) :
    ∀ (fuel iter : Nat) (w v : List α),
      noZeroLoop redraw fuel iter w = .ok v → ∀ x ∈ v, x ≠ 0 := by
  intro fuel
  induction fuel with
  | zero =>
      intro iter w v h
      cases hz : w.any (fun x => decide (x = 0)) with
      | true => rw [noZeroLoop_zero_stop redraw iter w hz] at h; exact absurd h (by simp)
      | false =>
          rw [noZeroLoop_done redraw 0 iter w hz] at h
          cases h
          exact (any_zero_eq_false w).mp hz
  | succ n ih =>
      intro iter w v h
      cases hz : w.any (fun x => decide (x = 0)) with
      | true =>
          rw [noZeroLoop_succ_step redraw n iter w hz] at h
          exact ih _ _ _ h
      | false =>
          rw [noZeroLoop_done redraw (n + 1) iter w hz] at h
          cases h
          exact (any_zero_eq_false w).mp hz

/-- The no-zero loop preserves the vector length. -/
theorem noZeroLoop_ok_length {α : Type} [Zero α] [DecidableEq α]
    (redraw : Nat → List α → List α)
    (hred : ∀ i w, (redraw i w).length = w.length) :
    ∀ (fuel iter : Nat) (w v : List α),
      noZeroLoop redraw fuel iter w = .ok v → v.length = w.length := by
  intro fuel
  induction fuel with
  | zero =>
      intro iter w v h
      cases hz : w.any (fun x => decide (x = 0)) with
      | true => rw [noZeroLoop_zero_stop redraw iter w hz] at h; exact absurd h (by simp)
      | false =>
          rw [noZeroLoop_done redraw 0 iter w hz] at h
          cases h; rfl
  | succ n ih =>
      intro iter w v h
      cases hz : w.any (fun x => decide (x = 0)) with
      | true =>
          rw [noZeroLoop_succ_step redraw n iter w hz] at h
          rw [ih _ _ _ h, hred]
      | false =>
          rw [noZeroLoop_done redraw (n + 1) iter w hz] at h
          cases h; rfl

/-- Two loop bodies that agree on every vector still containing a zero give
identical loops: the body is only ever invoked on such vectors. -/
theorem noZeroLoop_congr {α : Type} [Zero α] [DecidableEq α]
    (r1 r2 : Nat → List α → List α)
    (h : ∀ i w, w.any (fun x => decide (x = 0)) = true → r1 i w = r2 i w) :
    ∀ (fuel iter : Nat) (w : List α),
      noZeroLoop r1 fuel iter w = noZeroLoop r2 fuel iter w := by
  intro fuel
  induction fuel with
  | zero => intro iter w; rfl
  | succ n ih =>
      intro iter w
      cases hz : w.any (fun x => decide (x = 0)) with
      | true =>
          rw [noZeroLoop_succ_step r1 n iter w hz,
            noZeroLoop_succ_step r2 n iter w hz, h _ _ hz, ih]
      | false =>
          rw [noZeroLoop_done r1 (n + 1) iter w hz,
            noZeroLoop_done r2 (n + 1) iter w hz]

/-- A loop whose body leaves the (still-zero-containing) vector unchanged
never terminates, whatever the fuel. -/
theorem noZeroLoop_stuck {α : Type} [Zero α] [DecidableEq α]
    (redraw : Nat → List α → List α) (w : List α)
    (hz : w.any (fun x => decide (x = 0)) = true)
    (hfix : ∀ i, redraw i w = w) :
    ∀ (fuel iter : Nat), noZeroLoop redraw fuel iter w = .fuelOut := by
  intro fuel
  induction fuel with
  | zero => intro iter; exact noZeroLoop_zero_stop redraw iter w hz
  | succ n ih =>
      intro iter
      rw [noZeroLoop_succ_step redraw n iter w hz, hfix, ih]

theorem sample_weights_D_run (min_w max_w : Int) (L : Nat) (no_zero : Bool)
    (raw0 : Nat → Nat) (rawL : Nat → Nat → Nat) (fuel : Nat)
    (h1 : min_w < max_w + 1) :
    sample_weights_D min_w max_w L no_zero raw0 rawL fuel =
      (if no_zero then
        noZeroLoop
          (fun iter w =>
            fillZeros (fun k => randintDraw min_w (max_w + 1) (rawL iter k)) w 0)
          fuel 0 ((List.range L).map (fun k => randintDraw min_w (max_w + 1) (raw0 k)))
      else .ok ((List.range L).map (fun k => randintDraw min_w (max_w + 1) (raw0 k)))) := by
  simp only [sample_weights_D, if_pos h1]

theorem sample_with_ratio_D_run (min_w max_w : Int) (L : Nat) (P : ℚ)
    (no_zero : Bool) (perm : List Nat) (rawPos rawNeg : Nat → Nat)
    (rawL : Nat → Nat → Nat) (fuel : Nat)
    (h1 : (if no_zero then (1 : Int) else 0) < max_w + 1) (h2 : min_w < 0) :
    sample_with_ratio_D min_w max_w L P no_zero perm rawPos rawNeg rawL fuel =
      (if no_zero then
        noZeroLoop
          (fun iter w =>
            let lower : Int := if w.any (fun x => decide (x = 0)) then min_w else 1
            fillZeros (fun k => randintDraw lower (max_w + 1) (rawL iter k)) w 0)
          fuel 0
          (ratioInit min_w max_w (if no_zero then 1 else 0) L
            (posCount P L).toNat perm rawPos rawNeg)
      else .ok (ratioInit min_w max_w (if no_zero then 1 else 0) L
            (posCount P L).toNat perm rawPos rawNeg)) := by
  simp only [sample_with_ratio_D, if_pos h1, if_pos h2]

theorem sample_with_ratio_D_err1 (min_w max_w : Int) (L : Nat) (P : ℚ)
    (no_zero : Bool) (perm : List Nat) (rawPos rawNeg : Nat → Nat)
    (rawL : Nat → Nat → Nat) (fuel : Nat)
    (h1 : ¬ (if no_zero then (1 : Int) else 0) < max_w + 1) :
    sample_with_ratio_D min_w max_w L P no_zero perm rawPos rawNeg rawL fuel =
      .valueError := by
  simp only [sample_with_ratio_D, if_neg h1]

theorem sample_with_ratio_D_err2 (min_w max_w : Int) (L : Nat) (P : ℚ)
    (no_zero : Bool) (perm : List Nat) (rawPos rawNeg : Nat → Nat)
    (rawL : Nat → Nat → Nat) (fuel : Nat)
    (h1 : (if no_zero then (1 : Int) else 0) < max_w + 1) (h2 : ¬ min_w < 0) :
    sample_with_ratio_D min_w max_w L P no_zero perm rawPos rawNeg rawL fuel =
      .valueError := by
  simp only [sample_with_ratio_D, if_pos h1, if_neg h2]

theorem sample_with_ratio_C_run (L : Nat) (P : ℚ) (no_zero : Bool)
    (perm : List Nat) (uPos uNeg : Nat → ℚ) (uL : Nat → Nat → ℚ)
    (fuel : Nat) :
    sample_with_ratio_C L P no_zero perm uPos uNeg uL fuel =
      (if no_zero then
        noZeroLoop
          (fun iter w => fillZeros (fun k => round2 (uL iter k)) w 0)
          fuel 0 (ratioInitC L (posCount P L).toNat perm uPos uNeg)
      else .ok (ratioInitC L (posCount P L).toNat perm uPos uNeg)) := by
  simp only [sample_with_ratio_C]

theorem roundE_intCast (n : Int) : roundE ((n : ℚ)) = n := by
  simp only [roundE, Int.floor_intCast]
  norm_num

/-- Concrete run of the continuous ratio-constrained sampler, shared by
several witnesses: `L = 2`, `P = 50` (so `pos_cnt = 1`), permutation
`[0, 1]`, positive draw `1/2`, negative draw `-1/2` — the sampler returns
`[1/2, -1/2]` for either `no_zero` setting. -/
theorem ratioC_demo (nz : Bool) :
    sample_with_ratio_C 2 50 nz [0, 1] (fun _ => 1/2) (fun _ => -1/2)
      (fun _ _ => 0) 1 = .ok [1/2, -1/2] := by
  have hA : round2 (1/2 : ℚ) = 1/2 := by
    unfold round2
    rw [show (100 : ℚ) * (1/2) = ((50 : Int) : ℚ) from by norm_num,
      roundE_intCast]
    norm_num
  have hB : round2 (-1/2 : ℚ) = -1/2 := by
    unfold round2
    rw [show (100 : ℚ) * (-1/2) = ((-50 : Int) : ℚ) from by norm_num,
      roundE_intCast]
    norm_num
  have hp : posCount 50 2 = 1 := by norm_num [posCount, roundE]
  rw [sample_with_ratio_C_run 2 50 nz [0, 1] (fun _ => 1/2) (fun _ => -1/2)
    (fun _ _ => 0) 1, hp]
  have hinit : ratioInitC 2 (1 : Int).toNat [0, 1] (fun _ => 1/2)
      (fun _ => -1/2) = [round2 (1/2), round2 (-1/2)] := rfl
  cases nz with
  | false => rw [if_neg (by simp), hinit, hA, hB]
  | true =>
      rw [if_pos rfl, hinit, hA, hB,
        noZeroLoop_done _ 1 0 _ ((any_zero_eq_false _).mpr ?_)]
      intro x hx
      simp only [List.mem_cons, List.not_mem_nil, or_false] at hx
      rcases hx with h | h <;> rw [h] <;> norm_num

/-- C9: the two ratio-constrained samplers — the source one, whose re-sampling
lower bound is `min_w if mask.any() else 1`, and the variant with the dead
`else 1` branch removed — coincide on every input: the `else`-value `1` is
unreachable, and every zero position is re-drawn with lower bound `min_w`. -/
theorem claim_C9 (min_w max_w : Int) (L : Nat) (P : ℚ) (no_zero : Bool)
    (perm : List Nat) (rawPos rawNeg : Nat → Nat) (rawL : Nat → Nat → Nat)
    (fuel : Nat) :
    sample_with_ratio_D min_w max_w L P no_zero perm rawPos rawNeg rawL fuel =
      sample_with_ratio_D_fullRange min_w max_w L P no_zero perm rawPos rawNeg
        rawL fuel := by
  unfold sample_with_ratio_D sample_with_ratio_D_fullRange
  by_cases h1 : (if no_zero then (1 : Int) else 0) < max_w + 1
  · rw [if_pos h1, if_pos h1]
    by_cases h2 : min_w < 0
    · rw [if_pos h2, if_pos h2]
      cases no_zero with
      | false => rfl
      | true =>
          simp only [if_pos]
          exact noZeroLoop_congr _ _ (fun i w hw => by simp only [hw, if_pos]) fuel 0 _
    · rw [if_neg h2, if_neg h2]
  · rw [if_neg h1, if_neg h1]

/-- C5: with `no_zero=true`, whenever a sampler terminates, no element of the
produced weight vector equals zero — in either sampling mode and either
representation: unconstrained discrete, unconstrained continuous,
ratio-constrained discrete and ratio-constrained continuous samplers — and
each re-sampling pass re-draws only the zero-valued positions, leaving every
non-zero position unchanged. -/
theorem claim_C5 :
    (∀ (min_w max_w : Int) (L : Nat) (raw0 : Nat → Nat) (rawL : Nat → Nat → Nat)
        (fuel : Nat) (w : List Int),
        sample_weights_D min_w max_w L true raw0 rawL fuel = .ok w →
        ∀ x ∈ w, x ≠ 0) ∧
    (∀ (L : Nat) (u0 : Nat → ℚ) (uL : Nat → Nat → ℚ) (fuel : Nat) (w : List ℚ),
        sample_weights_C L true u0 uL fuel = .ok w → ∀ x ∈ w, x ≠ 0) ∧
    (∀ (min_w max_w : Int) (L : Nat) (P : ℚ) (perm : List Nat)
        (rawPos rawNeg : Nat → Nat) (rawL : Nat → Nat → Nat) (fuel : Nat)
        (w : List Int),
        sample_with_ratio_D min_w max_w L P true perm rawPos rawNeg rawL fuel =
          .ok w →
        ∀ x ∈ w, x ≠ 0) ∧
    (∀ (L : Nat) (P : ℚ) (perm : List Nat) (uPos uNeg : Nat → ℚ)
        (uL : Nat → Nat → ℚ) (fuel : Nat) (w : List ℚ),
        sample_with_ratio_C L P true perm uPos uNeg uL fuel = .ok w →
        ∀ x ∈ w, x ≠ 0) ∧
    (∀ (draws : Nat → Int) (w : List Int) (k i : Nat) (x : Int),
        w[i]? = some x → x ≠ 0 → (fillZeros draws w k)[i]? = some x) := by
  refine ⟨?_, ?_, ?_, ?_, ?_⟩
  · intro min_w max_w L raw0 rawL fuel w h
    by_cases h1 : min_w < max_w + 1
    · rw [sample_weights_D_run min_w max_w L true raw0 rawL fuel h1] at h
      rw [if_pos rfl] at h
      exact noZeroLoop_ok_no_zero _ fuel 0 _ w h
    · simp [sample_weights_D, h1] at h
  · intro L u0 uL fuel w h
    unfold sample_weights_C at h
    rw [if_pos rfl] at h
    exact noZeroLoop_ok_no_zero _ fuel 0 _ w h
  · intro min_w max_w L P perm rawPos rawNeg rawL fuel w h
    by_cases h1 : (if (true : Bool) then (1 : Int) else 0) < max_w + 1
    · by_cases h2 : min_w < 0
      · rw [sample_with_ratio_D_run min_w max_w L P true perm rawPos rawNeg rawL
          fuel h1 h2] at h
        rw [if_pos rfl] at h
        exact noZeroLoop_ok_no_zero _ fuel 0 _ w h
      · rw [sample_with_ratio_D_err2 min_w max_w L P true perm rawPos rawNeg rawL
          fuel h1 h2] at h
        exact absurd h (by simp)
    · rw [sample_with_ratio_D_err1 min_w max_w L P true perm rawPos rawNeg rawL
        fuel h1] at h
      exact absurd h (by simp)
  · intro L P perm uPos uNeg uL fuel w h
    rw [sample_with_ratio_C_run L P true perm uPos uNeg uL fuel,
      if_pos rfl] at h
    exact noZeroLoop_ok_no_zero _ fuel 0 _ w h
  · exact fun draws w k i x h hx => fillZeros_keeps_nonzero draws w k i x h hx

/-- Witness for C5: a terminating concrete run of each no-zero sampler, and a
concrete re-sampling pass keeping a non-zero entry. -/
theorem claim_C5_witness :
    (∀ x ∈ ([-2, -2] : List Int), x ≠ 0) ∧
    (∀ x ∈ ([1/2] : List ℚ), x ≠ 0) ∧
    (∀ x ∈ ([1/2, -1/2] : List ℚ), x ≠ 0) ∧
    ((fillZeros (fun _ => (7 : Int)) [0, 5] 0)[1]? = some 5) := by
  refine ⟨?_, ?_, ?_, ?_⟩
  · exact claim_C5.1 (-2) 2 2 (fun _ => 0) (fun _ _ => 0) 3 [-2, -2] (by decide)
  · exact claim_C5.2.1 1 (fun _ => 1/2) (fun _ _ => 0) 3 [1/2]
      (by unfold sample_weights_C noZeroLoop; norm_num [round2, roundE])
  · exact claim_C5.2.2.2.1 2 50 [0, 1] (fun _ => 1/2) (fun _ => -1/2)
      (fun _ _ => 0) 1 [1/2, -1/2] (ratioC_demo true)
  · exact claim_C5.2.2.2.2 (fun _ => (7 : Int)) [0, 5] 0 1 5 (by decide)
      (by decide)

/-- C6: the no-zero re-sampling loop is unguarded.  With `min == max == 0`
and `discrete`, every initial draw and every re-draw of
`np.random.randint(0, 1)` is `0`, so the loop runs forever for every
sequence of random draws (every fuel is exhausted); conversely, one
re-sampling pass can only shrink the set of zero positions, since non-zero
positions are never touched. -/
theorem claim_C6 :
    (∀ (L fuel : Nat) (raw0 : Nat → Nat) (rawL : Nat → Nat → Nat), 1 ≤ L →
        sample_weights_D 0 0 L true raw0 rawL fuel = .fuelOut) ∧
    (∀ (draws : Nat → Int) (w : List Int) (k i : Nat),
        (fillZeros draws w k)[i]? = some 0 → w[i]? = some 0) := by
  constructor
  · intro L fuel raw0 rawL hL
    have hdraw : ∀ r : Nat, randintDraw 0 (0 + 1) r = 0 := by
      intro r
      simp [randintDraw]
    have hfill : ∀ (d : Nat → Nat) (v : List Int), (∀ x ∈ v, x = 0) →
        fillZeros (fun k => randintDraw 0 (0 + 1) (d k)) v 0 = v := by
      intro d v
      have : ∀ (j : Nat), (∀ x ∈ v, x = 0) →
          fillZeros (fun k => randintDraw 0 (0 + 1) (d k)) v j = v := by
        induction v with
        | nil => intro j _; rfl
        | cons y ys ih =>
            intro j hv
            have hy : y = 0 := hv y (by simp)
            rw [fillZeros_cons_zero _ y ys j hy, hdraw, hy,
              ih (j + 1) (fun x hx => hv x (by simp [hx]))]
      exact this 0
    have hw0 : ∀ x ∈ (List.range L).map (fun k => randintDraw 0 (0 + 1) (raw0 k)),
        x = 0 := by
      intro x hx
      rcases List.mem_map.mp hx with ⟨k, _, hk⟩
      rw [← hk, hdraw]
    have hz : ((List.range L).map (fun k => randintDraw 0 (0 + 1) (raw0 k))).any
        (fun x => decide (x = 0)) = true := by
      rcases List.exists_mem_of_length_pos (by simpa using hL :
        0 < ((List.range L).map (fun k => randintDraw 0 (0 + 1) (raw0 k))).length)
        with ⟨x, hx⟩
      exact List.any_eq_true.mpr ⟨x, hx, by simp [hw0 x hx]⟩
    rw [sample_weights_D_run 0 0 L true raw0 rawL fuel (by omega), if_pos rfl]
    exact noZeroLoop_stuck _ _ hz (fun i => hfill (rawL i) _ hw0) fuel 0
  · exact fun draws w k i h => fillZeros_zero_subset draws w k i h

/-- Witness for C6: with `min = max = 0`, `no_zero`, length 1, the loop is
still unfinished after 5 iterations (and, by the theorem, after any number);
and a pass maps the zero vector to a vector that is still zero at index 0. -/
theorem claim_C6_witness :
    sample_weights_D 0 0 1 true (fun _ => 0) (fun _ _ => 0) 5 = .fuelOut ∧
    ([(0 : Int)])[0]? = some 0 := by
  constructor
  · exact claim_C6.1 1 5 (fun _ => 0) (fun _ _ => 0) (by decide)
  · exact claim_C6.2 (fun _ => (0 : Int)) [0] 0 0 (by decide)

theorem optimal_gene_getElem (w : List ℚ) (i : Nat) (x : ℚ)
    (h : w[i]? = some x) :
    (optimal_gene w)[i]? = some (if 0 < x then 1 else 0) := by
  simp [optimal_gene, h]

theorem ratioInit_length (min_w max_w lowPos : Int) (L pos_cnt : Nat)
    (perm : List Nat) (rawPos rawNeg : Nat → Nat) :
    (ratioInit min_w max_w lowPos L pos_cnt perm rawPos rawNeg).length = L := by
  simp [ratioInit]

theorem ratioInitC_length (L pos_cnt : Nat) (perm : List Nat)
    (uPos uNeg : Nat → ℚ) :
    (ratioInitC L pos_cnt perm uPos uNeg).length = L := by
  simp [ratioInitC]

/-- C3: the optimal gene has the weight vector's length (and each of the four
samplers — unconstrained and ratio-constrained, discrete and continuous —
returns a vector of the configured gene length), with `genes[i] = 1` exactly
for `weights[i] > 0` and `genes[i] = 0` exactly for `weights[i] ≤ 0`. -/
theorem claim_C3 :
    (∀ w : List ℚ, (optimal_gene w).length = w.length ∧
      ∀ (i : Nat) (x : ℚ), w[i]? = some x →
        (((optimal_gene w)[i]? = some 1) ↔ 0 < x) ∧
        (((optimal_gene w)[i]? = some 0) ↔ x ≤ 0)) ∧
    (∀ (min_w max_w : Int) (L : Nat) (nz : Bool) (raw0 : Nat → Nat)
        (rawL : Nat → Nat → Nat) (fuel : Nat) (w : List Int),
        sample_weights_D min_w max_w L nz raw0 rawL fuel = .ok w →
        w.length = L) ∧
    (∀ (L : Nat) (nz : Bool) (u0 : Nat → ℚ) (uL : Nat → Nat → ℚ) (fuel : Nat)
        (w : List ℚ),
        sample_weights_C L nz u0 uL fuel = .ok w → w.length = L) ∧
    (∀ (min_w max_w : Int) (L : Nat) (P : ℚ) (nz : Bool) (perm : List Nat)
        (rawPos rawNeg : Nat → Nat) (rawL : Nat → Nat → Nat) (fuel : Nat)
        (w : List Int),
        sample_with_ratio_D min_w max_w L P nz perm rawPos rawNeg rawL fuel =
          .ok w →
        w.length = L) ∧
    (∀ (L : Nat) (P : ℚ) (nz : Bool) (perm : List Nat) (uPos uNeg : Nat → ℚ)
        (uL : Nat → Nat → ℚ) (fuel : Nat) (w : List ℚ),
        sample_with_ratio_C L P nz perm uPos uNeg uL fuel = .ok w →
        w.length = L) := by
  refine ⟨?_, ?_, ?_, ?_, ?_⟩
  · intro w
    refine ⟨by simp [optimal_gene], ?_⟩
    intro i x h
    rw [optimal_gene_getElem w i x h]
    by_cases hx : 0 < x
    · simp [hx]
    · have hx0 : x ≤ 0 := by linarith
      simp [hx, hx0]
  · intro min_w max_w L nz raw0 rawL fuel w h
    by_cases h1 : min_w < max_w + 1
    · rw [sample_weights_D_run min_w max_w L nz raw0 rawL fuel h1] at h
      cases nz with
      | false =>
          rw [if_neg (by simp)] at h
          cases h
          simp
      | true =>
          rw [if_pos rfl] at h
          have := noZeroLoop_ok_length _ (fun i v => fillZeros_length _ v 0)
            fuel 0 _ w h
          simpa using this
    · rw [show sample_weights_D min_w max_w L nz raw0 rawL fuel = .valueError from by
        simp only [sample_weights_D, if_neg h1]] at h
      exact absurd h (by simp)
  · intro L nz u0 uL fuel w h
    unfold sample_weights_C at h
    cases nz with
    | false =>
        rw [if_neg (by simp)] at h
        cases h
        simp
    | true =>
        rw [if_pos rfl] at h
        have := noZeroLoop_ok_length _ (fun i v => fillZeros_length _ v 0)
          fuel 0 _ w h
        simpa using this
  · intro min_w max_w L P nz perm rawPos rawNeg rawL fuel w h
    by_cases h1 : (if nz then (1 : Int) else 0) < max_w + 1
    · by_cases h2 : min_w < 0
      · rw [sample_with_ratio_D_run min_w max_w L P nz perm rawPos rawNeg rawL
          fuel h1 h2] at h
        cases nz with
        | false =>
            rw [if_neg (by simp)] at h
            cases h
            exact ratioInit_length _ _ _ _ _ _ _ _
        | true =>
            rw [if_pos rfl] at h
            have := noZeroLoop_ok_length _ (fun i v => fillZeros_length _ v 0)
              fuel 0 _ w h
            rw [this, ratioInit_length]
      · rw [sample_with_ratio_D_err2 min_w max_w L P nz perm rawPos rawNeg rawL
          fuel h1 h2] at h
        exact absurd h (by simp)
    · rw [sample_with_ratio_D_err1 min_w max_w L P nz perm rawPos rawNeg rawL
        fuel h1] at h
      exact absurd h (by simp)
  · intro L P nz perm uPos uNeg uL fuel w h
    rw [sample_with_ratio_C_run L P nz perm uPos uNeg uL fuel] at h
    cases nz with
    | false =>
        rw [if_neg (by simp)] at h
        cases h
        exact ratioInitC_length _ _ _ _ _
    | true =>
        rw [if_pos rfl] at h
        have := noZeroLoop_ok_length _ (fun i v => fillZeros_length _ v 0)
          fuel 0 _ w h
        rw [this, ratioInitC_length]

/-- Witness for C3 at the weight vector `[2, -1]`, position 0, and a concrete
terminating discrete sampler run. -/
theorem claim_C3_witness :
    (optimal_gene [2, -1]).length = ([2, -1] : List ℚ).length ∧
    (((optimal_gene [2, -1])[0]? = some 1) ↔ (0 : ℚ) < 2) ∧
    ([-2, -2] : List Int).length = 2 ∧
    ([1/2, -1/2] : List ℚ).length = 2 := by
  refine ⟨(claim_C3.1 [2, -1]).1, ((claim_C3.1 [2, -1]).2 0 2 (by decide)).1,
    ?_, ?_⟩
  · exact claim_C3.2.1 (-2) 2 2 true (fun _ => 0) (fun _ _ => 0) 3 [-2, -2]
      (by decide)
  · exact claim_C3.2.2.2.2 2 50 false [0, 1] (fun _ => 1/2) (fun _ => -1/2)
      (fun _ _ => 0) 1 [1/2, -1/2] (ratioC_demo false)

theorem next_available_index_not_mem (used : Finset Nat) :
    next_available_index used ∉ used :=
  Nat.find_spec used.exists_not_mem

theorem next_available_index_min (used : Finset Nat) :
    ∀ m, m < next_available_index used → m ∈ used := by
  intro m hm
  have := Nat.find_min used.exists_not_mem hm
  simpa using this

theorem next_available_index_range (k : Nat) :
    next_available_index (Finset.range k) = k := by
  unfold next_available_index
  rw [Nat.find_eq_iff]
  exact ⟨by simp, fun n hn => by simp [hn]⟩

theorem writeIndices_range (N : Nat) :
    ∀ k, writeIndices (Finset.range k) N =
      (List.range' k N, Finset.range (k + N)) := by
  induction N with
  | zero => intro k; simp [writeIndices, List.range']
  | succ n ih =>
      intro k
      have hins : insert k (Finset.range k) = Finset.range (k + 1) :=
        (Finset.range_succ).symm
      simp only [writeIndices, next_available_index_range, hins, ih (k + 1)]
      rw [List.range'_succ, show k + 1 + n = k + (n + 1) from by omega]

/-- C7: `_next_available_index` returns the smallest index whose file does
not yet exist, and generating `N` instances into an initially empty
directory creates exactly `instance_0 … instance_{N-1}` with no collision. -/
theorem claim_C7 (used : Finset Nat) (N : Nat) :
    (next_available_index used ∉ used ∧
      ∀ m, m < next_available_index used → m ∈ used) ∧
    (writeIndices ∅ N).1 = List.range N ∧
    (writeIndices ∅ N).2 = Finset.range N := by
  refine ⟨⟨next_available_index_not_mem used, next_available_index_min used⟩, ?_, ?_⟩
  · rw [← Finset.range_zero, writeIndices_range N 0, List.range_eq_range']
  · rw [← Finset.range_zero, writeIndices_range N 0]
    simp

/-- Witness for C7 with one existing file `instance_0.csv` and a fresh
two-instance run. -/
theorem claim_C7_witness :
    next_available_index (Finset.range 1) ∉ Finset.range 1 ∧
    (0 ∈ Finset.range 1) ∧
    (writeIndices ∅ 2).1 = [0, 1] := by
  refine ⟨(claim_C7 (Finset.range 1) 2).1.1, ?_, ?_⟩
  · exact (claim_C7 (Finset.range 1) 2).1.2 0
      (by rw [next_available_index_range]; decide)
  · rw [(claim_C7 (Finset.range 1) 2).2.1]
    decide

/-- C8 counterexample: with `pos_percentage` unset the seventh field of the
per-instance file is `Pos Percentage,None` — the value part is the string
`None`, not empty as claimed. -/
theorem claim_C8_counterexample :
    (instance_file_fields "7" 5 "-10" "10" true false none [1, 0]
        ["7", "-3"])[6]? = some ("Pos Percentage", "None") ∧
    ("None" : String) ≠ "" := by
  exact ⟨rfl, by decide⟩

/-- C8 (amended): every per-instance file consists of exactly the nine
comma-separated key-value lines `Max Fitness`, `String Length`, `Min Weight`,
`Max Weight`, `Discrete`, `No Zero`, `Pos Percentage`, `Genes`, `Weights`,
in this order; when `pos_percentage` is unset the value part of the
`Pos Percentage` line is the string `None` (Python renders the `None`
object), not the empty string. -/
theorem claim_C8_amended (mf mi ma : String) (L : Nat) (d z : Bool)
    (pp : Option String) (g : List Nat) (ws : List String) :
    (instance_file_lines mf L mi ma d z pp g ws).length = 9 ∧
    (instance_file_fields mf L mi ma d z pp g ws).map Prod.fst =
      ["Max Fitness", "String Length", "Min Weight", "Max Weight", "Discrete",
       "No Zero", "Pos Percentage", "Genes", "Weights"] ∧
    instance_file_lines mf L mi ma d z pp g ws =
      (instance_file_fields mf L mi ma d z pp g ws).map
        (fun kv => kv.1 ++ "," ++ kv.2) ∧
    (instance_file_fields mf L mi ma d z none g ws)[6]? =
      some ("Pos Percentage", "None") :=
  ⟨rfl, rfl, rfl, rfl⟩

/-- C10: with `pos_percentage` set, `discrete=true` and `min_w ≥ 0`, the
ratio-constrained sampler raises (`np.random.randint` is called with the
empty range `[min_w, 0)`), so no instance is produced. -/
theorem claim_C10 (min_w max_w : Int) (L : Nat) (P : ℚ) (no_zero : Bool)
    (perm : List Nat) (rawPos rawNeg : Nat → Nat) (rawL : Nat → Nat → Nat)
    (fuel : Nat) (hmin : 0 ≤ min_w) (hneg : (posCount P L).toNat < L) :
    sample_with_ratio_D min_w max_w L P no_zero perm rawPos rawNeg rawL fuel =
      .valueError := by
  by_cases h1 : (if no_zero then (1 : Int) else 0) < max_w + 1
  · exact sample_with_ratio_D_err2 min_w max_w L P no_zero perm rawPos rawNeg
      rawL fuel h1 (by omega)
  · exact sample_with_ratio_D_err1 min_w max_w L P no_zero perm rawPos rawNeg
      rawL fuel h1

/-- Witness for C10: `min_w = 0`, `max_w = 5`, `L = 2`, `P = 50`
(`pos_cnt = 1 < 2`). -/
theorem claim_C10_witness :
    sample_with_ratio_D 0 5 2 50 false [0, 1] (fun _ => 0) (fun _ => 0)
      (fun _ _ => 0) 0 = .valueError :=
  claim_C10 0 5 2 50 false [0, 1] (fun _ => 0) (fun _ => 0) (fun _ _ => 0) 0
    (by decide)
    (by
      have h : posCount 50 2 = 1 := by norm_num [posCount, roundE]
      rw [h]
      decide)

theorem randintDraw_bounds (lo hi : Int) (r : Nat) (h : lo < hi) :
    lo ≤ randintDraw lo hi r ∧ randintDraw lo hi r < hi := by
  unfold randintDraw
  have hpos : 0 < (hi - lo).toNat := by omega
  have hlt : (r % (hi - lo).toNat : Nat) < (hi - lo).toNat := Nat.mod_lt r hpos
  have hcast : ((r % (hi - lo).toNat : Nat) : Int) < ((hi - lo).toNat : Int) := by
    exact_mod_cast hlt
  have h0 : (0 : Int) ≤ ((r % (hi - lo).toNat : Nat) : Int) := Int.natCast_nonneg _
  omega

theorem indexOf_lt_of_mem_take {l : List Nat} {n a : Nat}
    (h : a ∈ l.take n) : l.indexOf a < n := by
  induction l generalizing n with
  | nil => simp at h
  | cons b t ih =>
      cases n with
      | zero => simp at h
      | succ m =>
          rw [List.take_succ_cons] at h
          by_cases hab : a = b
          · subst hab
            rw [List.indexOf_cons_self]
            omega
          · have hmem : a ∈ t.take m := by
              rcases List.mem_cons.mp h with h1 | h1
              · exact absurd h1 hab
              · exact h1
            have := ih hmem
            rw [List.indexOf_cons_ne _ (fun hba => hab hba.symm)]
            omega

theorem mem_take_of_indexOf_lt {l : List Nat} {n a : Nat}
    (hmem : a ∈ l) (h : l.indexOf a < n) : a ∈ l.take n := by
  induction l generalizing n with
  | nil => simp at hmem
  | cons b t ih =>
      by_cases hab : a = b
      · subst hab
        cases n with
        | zero => exact absurd h (by omega)
        | succ m => simp [List.take_succ_cons]
      · have hmem' : a ∈ t := by
          rcases List.mem_cons.mp hmem with h1 | h1
          · exact absurd h1 hab
          · exact h1
        rw [List.indexOf_cons_ne _ (fun hba => hab hba.symm)] at h
        cases n with
        | zero => exact absurd h (by omega)
        | succ m =>
            rw [List.take_succ_cons]
            exact List.mem_cons.mpr (Or.inr (ih hmem' (by omega)))

theorem countP_mem_left (t d : List Nat) (hnd : (t ++ d).Nodup) :
    (t ++ d).countP (fun j => decide (j ∈ t)) = t.length := by
  rw [List.countP_append]
  have hdisj := List.disjoint_of_nodup_append hnd
  have h1 : t.countP (fun j => decide (j ∈ t)) = t.length :=
    List.countP_eq_length.mpr (fun a ha => decide_eq_true ha)
  have h2 : d.countP (fun j => decide (j ∈ t)) = 0 :=
    List.countP_eq_zero.mpr (fun a ha hm => hdisj (of_decide_eq_true hm) ha)
  omega

theorem countP_mem_right (t d : List Nat) (hnd : (t ++ d).Nodup) :
    (t ++ d).countP (fun j => decide (j ∈ d)) = d.length := by
  rw [List.countP_append]
  have hdisj := List.disjoint_of_nodup_append hnd
  have h1 : d.countP (fun j => decide (j ∈ d)) = d.length :=
    List.countP_eq_length.mpr (fun a ha => decide_eq_true ha)
  have h2 : t.countP (fun j => decide (j ∈ d)) = 0 :=
    List.countP_eq_zero.mpr (fun a ha hm => hdisj ha (of_decide_eq_true hm))
  omega

theorem countP_range_mem_take (L c : Nat) (perm : List Nat)
    (hperm : perm.Perm (List.range L)) (hc : c ≤ L) :
    (List.range L).countP (fun j => decide (j ∈ perm.take c)) = c := by
  have hlen : perm.length = L := by simpa using hperm.length_eq
  have hnd : perm.Nodup := hperm.nodup_iff.mpr (List.nodup_range L)
  rw [hperm.symm.countP_eq (fun j => decide (j ∈ perm.take c))]
  have hsplit : perm.countP (fun j => decide (j ∈ perm.take c)) =
      (perm.take c ++ perm.drop c).countP (fun j => decide (j ∈ perm.take c)) := by
    rw [List.take_append_drop]
  rw [hsplit, countP_mem_left _ _ (by rw [List.take_append_drop]; exact hnd)]
  rw [List.length_take]
  omega

theorem countP_range_mem_drop (L c : Nat) (perm : List Nat)
    (hperm : perm.Perm (List.range L)) :
    (List.range L).countP (fun j => decide (j ∈ perm.drop c)) = L - c := by
  have hlen : perm.length = L := by simpa using hperm.length_eq
  have hnd : perm.Nodup := hperm.nodup_iff.mpr (List.nodup_range L)
  rw [hperm.symm.countP_eq (fun j => decide (j ∈ perm.drop c))]
  have hsplit : perm.countP (fun j => decide (j ∈ perm.drop c)) =
      (perm.take c ++ perm.drop c).countP (fun j => decide (j ∈ perm.drop c)) := by
    rw [List.take_append_drop]
  rw [hsplit, countP_mem_right _ _ (by rw [List.take_append_drop]; exact hnd)]
  rw [List.length_drop]
  omega

/-- In a nodup permutation, position `j` is in the positive block iff its
index in `perm` is below `pos_cnt`, and the sampled value's sign follows. -/
theorem ratioVal_sign (min_w max_w : Int) (L c : Nat) (perm : List Nat)
    (rawPos rawNeg : Nat → Nat) (hperm : perm.Perm (List.range L))
    (hmax : (0 : Int) < max_w) (hmin : min_w < 0) :
    ∀ j ∈ List.range L,
      (perm.indexOf j < c →
        0 < ratioVal min_w max_w 1 c perm rawPos rawNeg j) ∧
      (¬ perm.indexOf j < c →
        ratioVal min_w max_w 1 c perm rawPos rawNeg j < 0) := by
  intro j hj
  have hjp : j ∈ perm := hperm.mem_iff.mpr hj
  have hk : perm.indexOf j < perm.length := List.indexOf_lt_length.mpr hjp
  constructor
  · intro hlt
    unfold ratioVal
    rw [if_pos hlt]
    have := (randintDraw_bounds 1 (max_w + 1) (rawPos (perm.indexOf j))
      (by omega)).1
    omega
  · intro hge
    unfold ratioVal
    rw [if_neg hge, if_pos hk]
    exact (randintDraw_bounds min_w 0 (rawNeg (perm.indexOf j - c)) (by omega)).2

/-- Exact sign counts of the initial ratio-constrained fill, `no_zero` case
(positive draws from `[1, max_w]`, negative draws from `[min_w, -1]`). -/
theorem ratioInit_counts (min_w max_w : Int) (L c : Nat) (perm : List Nat)
    (rawPos rawNeg : Nat → Nat) (hperm : perm.Perm (List.range L)) (hc : c ≤ L)
    (hmax : (0 : Int) < max_w) (hmin : min_w < 0) :
    (ratioInit min_w max_w 1 L c perm rawPos rawNeg).countP
        (fun x => decide (0 < x)) = c ∧
    (ratioInit min_w max_w 1 L c perm rawPos rawNeg).countP
        (fun x => decide (x < 0)) = L - c ∧
    ∀ x ∈ ratioInit min_w max_w 1 L c perm rawPos rawNeg, x ≠ 0 := by
  have hsign := ratioVal_sign min_w max_w L c perm rawPos rawNeg hperm hmax hmin
  have hnd : perm.Nodup := hperm.nodup_iff.mpr (List.nodup_range L)
  have htd : perm.take c ++ perm.drop c = perm := List.take_append_drop c perm
  have hdisj : List.Disjoint (perm.take c) (perm.drop c) :=
    List.disjoint_of_nodup_append (by rw [htd]; exact hnd)
  have hiff : ∀ j ∈ List.range L,
      (perm.indexOf j < c ↔ j ∈ perm.take c) := by
    intro j hj
    exact ⟨fun h => mem_take_of_indexOf_lt (hperm.mem_iff.mpr hj) h,
      fun h => indexOf_lt_of_mem_take h⟩
  have hiffd : ∀ j ∈ List.range L,
      (¬ perm.indexOf j < c ↔ j ∈ perm.drop c) := by
    intro j hj
    have hjp : j ∈ perm := hperm.mem_iff.mpr hj
    constructor
    · intro h
      have : j ∉ perm.take c := fun hm => h (indexOf_lt_of_mem_take hm)
      have : j ∈ perm.take c ++ perm.drop c := by rw [htd]; exact hjp
      rcases List.mem_append.mp this with h1 | h1
      · exact absurd h1 (fun hm => h (indexOf_lt_of_mem_take hm))
      · exact h1
    · intro h hlt
      exact hdisj (mem_take_of_indexOf_lt hjp hlt) h
  refine ⟨?_, ?_, ?_⟩
  · unfold ratioInit
    rw [List.countP_map]
    have hcongr : (List.range L).countP
        ((fun x => decide (0 < x)) ∘ ratioVal min_w max_w 1 c perm rawPos rawNeg) =
        (List.range L).countP (fun j => decide (j ∈ perm.take c)) := by
      apply List.countP_congr
      intro j hj
      simp only [Function.comp, decide_eq_true_eq]
      constructor
      · intro hpos
        by_cases hlt : perm.indexOf j < c
        · exact (hiff j hj).mp hlt
        · exact absurd hpos (by have := (hsign j hj).2 hlt; omega)
      · intro hm
        exact (hsign j hj).1 ((hiff j hj).mpr hm)
    rw [hcongr]
    exact countP_range_mem_take L c perm hperm hc
  · unfold ratioInit
    rw [List.countP_map]
    have hcongr : (List.range L).countP
        ((fun x => decide (x < 0)) ∘ ratioVal min_w max_w 1 c perm rawPos rawNeg) =
        (List.range L).countP (fun j => decide (j ∈ perm.drop c)) := by
      apply List.countP_congr
      intro j hj
      simp only [Function.comp, decide_eq_true_eq]
      constructor
      · intro hneg
        by_cases hlt : perm.indexOf j < c
        · exact absurd hneg (by have := (hsign j hj).1 hlt; omega)
        · exact (hiffd j hj).mp hlt
      · intro hm
        have hge : ¬ perm.indexOf j < c := by
          intro hlt
          exact hdisj (mem_take_of_indexOf_lt (hperm.mem_iff.mpr hj) hlt) hm
        exact (hsign j hj).2 hge
    rw [hcongr]
    exact countP_range_mem_drop L c perm hperm
  · intro x hx
    rcases List.mem_map.mp hx with ⟨j, hj, hjx⟩
    by_cases hlt : perm.indexOf j < c
    · have := (hsign j hj).1 hlt
      omega
    · have := (hsign j hj).2 hlt
      omega

theorem sample_with_ratio_D_run_true (min_w max_w : Int) (L : Nat) (P : ℚ)
    (perm : List Nat) (rawPos rawNeg : Nat → Nat) (rawL : Nat → Nat → Nat)
    (fuel : Nat) (h1 : (0 : Int) < max_w) (h2 : min_w < 0) :
    sample_with_ratio_D min_w max_w L P true perm rawPos rawNeg rawL fuel =
      noZeroLoop
        (fun iter w =>
          let lower : Int := if w.any (fun x => decide (x = 0)) then min_w else 1
          fillZeros (fun k => randintDraw lower (max_w + 1) (rawL iter k)) w 0)
        fuel 0
        (ratioInit min_w max_w 1 L (posCount P L).toNat perm rawPos rawNeg) := by
  rw [sample_with_ratio_D_run min_w max_w L P true perm rawPos rawNeg rawL fuel
    (by simp only [if_pos]; omega) h2, if_pos rfl]
  rfl

/-- C2 (amended): with `discrete=true` and `no_zero=true` — positive draws
from `[1, max_w]`, negative draws from `[min_w, -1]` — every vector produced
by the ratio-constrained sampler has exactly `round(P/100·L)` strictly
positive entries and all remaining entries strictly negative.  With
`no_zero=false` a zero draw in the positive block breaks the exact count
(see the counterexample), and with `discrete=false` full-range re-sampling
of rounded-to-zero entries can likewise break it. -/
theorem claim_C2_amended (min_w max_w : Int) (L : Nat) (P : ℚ)
    (perm : List Nat) (rawPos rawNeg : Nat → Nat) (rawL : Nat → Nat → Nat)
    (fuel : Nat) (w : List Int)
    (hperm : perm.Perm (List.range L)) (hc : (posCount P L).toNat ≤ L)
    (h : sample_with_ratio_D min_w max_w L P true perm rawPos rawNeg rawL fuel =
      .ok w) :
    w.countP (fun x => decide (0 < x)) = (posCount P L).toNat ∧
    w.countP (fun x => decide (x < 0)) = L - (posCount P L).toNat := by
  by_cases h1 : (if (true : Bool) then (1 : Int) else 0) < max_w + 1
  · by_cases h2 : min_w < 0
    · have hmax : (0 : Int) < max_w := by
        have := h1
        simp only [if_pos] at this
        omega
      rw [sample_with_ratio_D_run_true min_w max_w L P perm rawPos rawNeg rawL
        fuel hmax h2] at h
      have hcounts := ratioInit_counts min_w max_w L (posCount P L).toNat perm
        rawPos rawNeg hperm hc hmax h2
      have hz : (ratioInit min_w max_w 1 L (posCount P L).toNat perm rawPos
          rawNeg).any (fun x => decide (x = 0)) = false :=
        (any_zero_eq_false _).mpr hcounts.2.2
      rw [noZeroLoop_done _ fuel 0 _ hz] at h
      cases h
      exact ⟨hcounts.1, hcounts.2.1⟩
    · rw [sample_with_ratio_D_err2 min_w max_w L P true perm rawPos rawNeg rawL
        fuel h1 h2] at h
      exact absurd h (by simp)
  · rw [sample_with_ratio_D_err1 min_w max_w L P true perm rawPos rawNeg rawL
      fuel h1] at h
    exact absurd h (by simp)

/-- C2 counterexample: `P = 100`, `L = 1`, `discrete = true`,
`no_zero = false` — the positive block is drawn from `[0, max_w]`, and the
draw `0` yields the vector `[0]` with `0` strictly positive entries instead
of the claimed `round(P/100·L) = 1` (and `0` is not negative either). -/
theorem claim_C2_counterexample :
    sample_with_ratio_D (-5) 5 1 100 false [0] (fun _ => 0) (fun _ => 0)
      (fun _ _ => 0) 0 = .ok [0] ∧
    ¬ (([0] : List Int).countP (fun x => decide (0 < x)) =
        (posCount 100 1).toNat) := by
  have hp : posCount 100 1 = 1 := by norm_num [posCount, roundE]
  constructor
  · rw [sample_with_ratio_D_run (-5) 5 1 100 false [0] (fun _ => 0)
      (fun _ => 0) (fun _ _ => 0) 0 (by decide) (by decide)]
    rw [if_neg (by simp), hp]
    decide
  · rw [hp]
    decide

/-- Witness for the amended C2: `min_w = -5`, `max_w = 5`, `L = 2`, `P = 50`,
`no_zero = true`, permutation `[0, 1]`, all raw entropy `0` — the run
terminates with `[1, -5]`: one positive, one negative entry. -/
theorem claim_C2_witness :
    ([1, -5] : List Int).countP (fun x => decide (0 < x)) =
      (posCount 50 2).toNat ∧
    ([1, -5] : List Int).countP (fun x => decide (x < 0)) =
      2 - (posCount 50 2).toNat := by
  have hp : posCount 50 2 = 1 := by norm_num [posCount, roundE]
  exact claim_C2_amended (-5) 5 2 50 [0, 1] (fun _ => 0) (fun _ => 0)
    (fun _ _ => 0) 1 [1, -5] (by decide) (by rw [hp]; decide)
    (by
      rw [sample_with_ratio_D_run_true (-5) 5 2 50 [0, 1] (fun _ => 0)
        (fun _ => 0) (fun _ _ => 0) 1 (by decide) (by decide), hp]
      decide)

theorem fillZeros_no_zero {α : Type} [Zero α] [DecidableEq α]
    (draws : Nat → α) (w : List α) :
    ∀ k, (∀ x ∈ w, x ≠ 0) → fillZeros draws w k = w := by
  induction w with
  | nil => intro k _; rfl
  | cons y ys ih =>
      intro k hw
      rw [fillZeros_cons_ne draws y ys k (hw y (by simp)),
        ih k (fun x hx => hw x (by simp [hx]))]

theorem fillZeros_pred {α : Type} [Zero α] [DecidableEq α] (draws : Nat → α)
    (Q : α → Prop) (hd : ∀ k, Q (draws k)) (w : List α) :
    ∀ k, (∀ x ∈ w, Q x) → ∀ x ∈ fillZeros draws w k, Q x := by
  induction w with
  | nil => intro k _ x hx; simp [fillZeros] at hx
  | cons y ys ih =>
      intro k hw x hx
      by_cases hy : y = 0
      · rw [fillZeros_cons_zero draws y ys k hy] at hx
        rcases List.mem_cons.mp hx with h1 | h1
        · rw [h1]; exact hd k
        · exact ih (k + 1) (fun z hz => hw z (by simp [hz])) x h1
      · rw [fillZeros_cons_ne draws y ys k hy] at hx
        rcases List.mem_cons.mp hx with h1 | h1
        · rw [h1]; exact hw y (by simp)
        · exact ih k (fun z hz => hw z (by simp [hz])) x h1

/-- Any property of individual entries preserved by the loop body is
preserved by the no-zero loop. -/
theorem noZeroLoop_ok_pred {α : Type} [Zero α] [DecidableEq α]
    (redraw : Nat → List α → List α) (Q : α → Prop)
    (hred : ∀ i w, (∀ x ∈ w, Q x) → ∀ x ∈ redraw i w, Q x) :
    ∀ (fuel iter : Nat) (w v : List α), (∀ x ∈ w, Q x) →
      noZeroLoop redraw fuel iter w = .ok v → ∀ x ∈ v, Q x := by
  intro fuel
  induction fuel with
  | zero =>
      intro iter w v hw h
      cases hz : w.any (fun x => decide (x = 0)) with
      | true => rw [noZeroLoop_zero_stop redraw iter w hz] at h; exact absurd h (by simp)
      | false => rw [noZeroLoop_done redraw 0 iter w hz] at h; cases h; exact hw
  | succ n ih =>
      intro iter w v hw h
      cases hz : w.any (fun x => decide (x = 0)) with
      | true =>
          rw [noZeroLoop_succ_step redraw n iter w hz] at h
          exact ih _ _ _ (hred iter w hw) h
      | false =>
          rw [noZeroLoop_done redraw (n + 1) iter w hz] at h
          cases h; exact hw

theorem roundE_bounds (x : ℚ) :
    x - 1/2 ≤ (roundE x : ℚ) ∧ (roundE x : ℚ) ≤ x + 1/2 := by
  have hf : (⌊x⌋ : ℚ) ≤ x := Int.floor_le x
  have hf1 : x < (⌊x⌋ : ℚ) + 1 := Int.lt_floor_add_one x
  simp only [roundE]
  split_ifs with h1 h2 h3 <;> constructor <;> push_cast <;> linarith

theorem roundE_floor_ceil (x : ℚ) : ⌊x⌋ ≤ roundE x ∧ roundE x ≤ ⌈x⌉ := by
  have hf : (⌊x⌋ : ℚ) ≤ x := Int.floor_le x
  have hlt : ¬ x - ⌊x⌋ < 1/2 → (⌊x⌋ : ℚ) < x := by
    intro h
    by_contra hc
    push_neg at hc
    have : x = ⌊x⌋ := le_antisymm hc hf
    rw [this] at h
    simp at h
  have hceil : (⌊x⌋ : ℚ) < x → ⌊x⌋ + 1 ≤ ⌈x⌉ := fun h => Int.lt_ceil.mpr h
  simp only [roundE]
  split_ifs with h1 h2 h3
  · exact ⟨le_refl _, Int.floor_le_ceil x⟩
  · exact ⟨by omega, hceil (hlt (by linarith))⟩
  · exact ⟨le_refl _, Int.floor_le_ceil x⟩
  · exact ⟨by omega, hceil (hlt h1)⟩

theorem round2_is_centi (x : ℚ) : ∃ n : Int, round2 x = (n : ℚ) / 100 :=
  ⟨roundE (100 * x), rfl⟩

theorem round2_bounds (lo hi x : ℚ) (h1 : lo ≤ x) (h2 : x < hi) :
    lo - 1/200 ≤ round2 x ∧ round2 x ≤ hi + 1/200 := by
  have hb := roundE_bounds (100 * x)
  unfold round2
  constructor <;> linarith

theorem round2_bounds_aligned (lo hi x : ℚ) (m n : Int)
    (hm : lo = (m : ℚ) / 100) (hn : hi = (n : ℚ) / 100)
    (h1 : lo ≤ x) (h2 : x < hi) : lo ≤ round2 x ∧ round2 x ≤ hi := by
  have hfc := roundE_floor_ceil (100 * x)
  have hfl : m ≤ ⌊100 * x⌋ := Int.le_floor.mpr (by rw [hm] at h1; linarith)
  have hcl : ⌈100 * x⌉ ≤ n := Int.ceil_le.mpr (by rw [hn] at h2; linarith)
  have hml : (m : ℚ) ≤ (roundE (100 * x) : ℚ) := by exact_mod_cast (by omega : m ≤ roundE (100 * x))
  have hnl : ((roundE (100 * x) : Int) : ℚ) ≤ (n : ℚ) := by exact_mod_cast (by omega : roundE (100 * x) ≤ n)
  unfold round2
  rw [hm, hn]
  constructor <;> linarith

theorem sample_weights_D_pred (min_w max_w : Int) (L : Nat) (nz : Bool)
    (raw0 : Nat → Nat) (rawL : Nat → Nat → Nat) (fuel : Nat) (w : List Int)
    (Q : Int → Prop) (hQ : ∀ r : Nat, Q (randintDraw min_w (max_w + 1) r))
    (h : sample_weights_D min_w max_w L nz raw0 rawL fuel = .ok w) :
    ∀ x ∈ w, Q x := by
  by_cases h1 : min_w < max_w + 1
  · rw [sample_weights_D_run min_w max_w L nz raw0 rawL fuel h1] at h
    have hw0 : ∀ x ∈ (List.range L).map
        (fun k => randintDraw min_w (max_w + 1) (raw0 k)), Q x := by
      intro x hx
      rcases List.mem_map.mp hx with ⟨k, _, hk⟩
      rw [← hk]
      exact hQ (raw0 k)
    cases nz with
    | false =>
        rw [if_neg (by simp)] at h
        cases h
        exact hw0
    | true =>
        rw [if_pos rfl] at h
        exact noZeroLoop_ok_pred _ Q
          (fun i v hv => fillZeros_pred _ Q (fun k => hQ (rawL i k)) v 0 hv)
          fuel 0 _ w hw0 h
  · rw [show sample_weights_D min_w max_w L nz raw0 rawL fuel = .valueError from by
      simp only [sample_weights_D, if_neg h1]] at h
    exact absurd h (by simp)

theorem sample_with_ratio_D_pred (min_w max_w : Int) (L : Nat) (P : ℚ)
    (nz : Bool) (perm : List Nat) (rawPos rawNeg : Nat → Nat)
    (rawL : Nat → Nat → Nat) (fuel : Nat) (w : List Int) (Q : Int → Prop)
    (hQpos : ∀ r, Q (randintDraw (if nz then 1 else 0) (max_w + 1) r))
    (hQneg : ∀ r, Q (randintDraw min_w 0 r))
    (hQzero : Q 0)
    (hQloop : ∀ r, Q (randintDraw min_w (max_w + 1) r))
    (h : sample_with_ratio_D min_w max_w L P nz perm rawPos rawNeg rawL fuel =
      .ok w) :
    ∀ x ∈ w, Q x := by
  by_cases h1 : (if nz then (1 : Int) else 0) < max_w + 1
  · by_cases h2 : min_w < 0
    · rw [sample_with_ratio_D_run min_w max_w L P nz perm rawPos rawNeg rawL
        fuel h1 h2] at h
      have hw0 : ∀ x ∈ ratioInit min_w max_w (if nz then 1 else 0) L
          (posCount P L).toNat perm rawPos rawNeg, Q x := by
        intro x hx
        rcases List.mem_map.mp hx with ⟨j, _, hj⟩
        rw [← hj]
        simp only [ratioVal]
        by_cases ha : perm.indexOf j < (posCount P L).toNat
        · rw [if_pos ha]
          exact hQpos _
        · rw [if_neg ha]
          by_cases hb : perm.indexOf j < perm.length
          · rw [if_pos hb]
            exact hQneg _
          · rw [if_neg hb]
            exact hQzero
      cases nz with
      | false =>
          rw [if_neg (by simp)] at h
          cases h
          exact hw0
      | true =>
          rw [if_pos rfl] at h
          refine noZeroLoop_ok_pred _ Q ?_ fuel 0 _ w hw0 h
          intro i v hv x hx
          cases hz : v.any (fun y => decide (y = 0)) with
          | true =>
              rw [show (if v.any (fun y => decide (y = 0)) then min_w else 1) =
                  min_w from by rw [hz]; rfl] at hx
              exact fillZeros_pred _ Q (fun k => hQloop (rawL i k)) v 0 hv x hx
          | false =>
              rw [fillZeros_no_zero _ v 0 ((any_zero_eq_false v).mp hz)] at hx
              exact hv x hx
    · rw [sample_with_ratio_D_err2 min_w max_w L P nz perm rawPos rawNeg rawL
        fuel h1 h2] at h
      exact absurd h (by simp)
  · rw [sample_with_ratio_D_err1 min_w max_w L P nz perm rawPos rawNeg rawL
      fuel h1] at h
    exact absurd h (by simp)

theorem sample_weights_C_pred (L : Nat) (nz : Bool) (u0 : Nat → ℚ)
    (uL : Nat → Nat → ℚ) (fuel : Nat) (w : List ℚ) (Q : ℚ → Prop)
    (h0 : ∀ k, Q (round2 (u0 k))) (hL : ∀ i k, Q (round2 (uL i k)))
    (h : sample_weights_C L nz u0 uL fuel = .ok w) : ∀ x ∈ w, Q x := by
  unfold sample_weights_C at h
  have hw0 : ∀ x ∈ (List.range L).map (fun k => round2 (u0 k)), Q x := by
    intro x hx
    rcases List.mem_map.mp hx with ⟨k, _, hk⟩
    rw [← hk]
    exact h0 k
  cases nz with
  | false =>
      rw [if_neg (by simp)] at h
      cases h
      exact hw0
  | true =>
      rw [if_pos rfl] at h
      exact noZeroLoop_ok_pred _ Q
        (fun i v hv => fillZeros_pred _ Q (fun k => hL i k) v 0 hv)
        fuel 0 _ w hw0 h

theorem sample_with_ratio_C_pred (L : Nat) (P : ℚ) (nz : Bool)
    (perm : List Nat) (uPos uNeg : Nat → ℚ) (uL : Nat → Nat → ℚ)
    (fuel : Nat) (w : List ℚ) (Q : ℚ → Prop)
    (hQpos : ∀ k, Q (round2 (uPos k)))
    (hQneg : ∀ k, Q (round2 (uNeg k)))
    (hQzero : Q 0)
    (hQloop : ∀ i k, Q (round2 (uL i k)))
    (h : sample_with_ratio_C L P nz perm uPos uNeg uL fuel = .ok w) :
    ∀ x ∈ w, Q x := by
  rw [sample_with_ratio_C_run L P nz perm uPos uNeg uL fuel] at h
  have hw0 : ∀ x ∈ ratioInitC L (posCount P L).toNat perm uPos uNeg, Q x := by
    intro x hx
    rcases List.mem_map.mp hx with ⟨j, _, hj⟩
    rw [← hj]
    simp only [ratioValC]
    by_cases ha : perm.indexOf j < (posCount P L).toNat
    · rw [if_pos ha]
      exact hQpos _
    · rw [if_neg ha]
      by_cases hb : perm.indexOf j < perm.length
      · rw [if_pos hb]
        exact hQneg _
      · rw [if_neg hb]
        exact hQzero
  cases nz with
  | false =>
      rw [if_neg (by simp)] at h
      cases h
      exact hw0
  | true =>
      rw [if_pos rfl] at h
      exact noZeroLoop_ok_pred _ Q
        (fun i v hv => fillZeros_pred _ Q (fun k => hQloop i k) v 0 hv)
        fuel 0 _ w hw0 h

/-- C4 counterexample: in the continuous unconstrained sampler with
`min = 0`, `max = 0.006`, the legal uniform draw `0.0059 ∈ [0, 0.006)`
rounds to `0.01 > max`: continuous weights are not always within
`[min, max]`. -/
theorem claim_C4_counterexample :
    ((0 : ℚ) ≤ 59/10000 ∧ (59/10000 : ℚ) < 3/500) ∧
    sample_weights_C 1 false (fun _ => 59/10000) (fun _ _ => 0) 0 =
      .ok [1/100] ∧
    ¬ ((1/100 : ℚ) ≤ 3/500) := by
  have hfl : ⌊(59/100 : ℚ)⌋ = 0 := by
    rw [Int.floor_eq_iff]
    constructor <;> norm_num
  have h59 : roundE (59/100 : ℚ) = 1 := by
    simp only [roundE, hfl]
    norm_num
  have hr2 : round2 (59/10000 : ℚ) = 1/100 := by
    unfold round2
    norm_num
    rw [h59]
    norm_num
  refine ⟨by norm_num, ?_, by norm_num⟩
  unfold sample_weights_C
  rw [if_neg (by simp)]
  rw [show List.range 1 = [0] from rfl]
  simp only [List.map_cons, List.map_nil, hr2]

/-- C4 (amended): in the discrete case (both samplers) every produced weight
is an integer within `[min_w, max_w]`.  In the continuous case — both the
unconstrained sampler and the ratio-constrained sampler, whose uniform draws
come from `[min_w, max_w)`, respectively from `[0, max_w)` / `[min_w, 0)` /
`[min_w, max_w)` for its positive block, negative block and no-zero loop —
every produced weight is an integer multiple of `1/100` within
`[min_w − 1/200, max_w + 1/200]`, and within `[min_w, max_w]` whenever
`min_w` and `max_w` are themselves integer multiples of `1/100` — but not in
general, as the counterexample shows. -/
theorem claim_C4_amended :
    (∀ (min_w max_w : Int) (L : Nat) (nz : Bool) (raw0 : Nat → Nat)
        (rawL : Nat → Nat → Nat) (fuel : Nat) (w : List Int),
        sample_weights_D min_w max_w L nz raw0 rawL fuel = .ok w →
        ∀ x ∈ w, min_w ≤ x ∧ x ≤ max_w) ∧
    (∀ (min_w max_w : Int) (L : Nat) (P : ℚ) (nz : Bool) (perm : List Nat)
        (rawPos rawNeg : Nat → Nat) (rawL : Nat → Nat → Nat) (fuel : Nat)
        (w : List Int),
        sample_with_ratio_D min_w max_w L P nz perm rawPos rawNeg rawL fuel =
          .ok w →
        ∀ x ∈ w, min_w ≤ x ∧ x ≤ max_w) ∧
    (∀ (min_w max_w : ℚ) (L : Nat) (nz : Bool) (u0 : Nat → ℚ)
        (uL : Nat → Nat → ℚ) (fuel : Nat) (w : List ℚ),
        (∀ k, min_w ≤ u0 k ∧ u0 k < max_w) →
        (∀ i k, min_w ≤ uL i k ∧ uL i k < max_w) →
        sample_weights_C L nz u0 uL fuel = .ok w →
        ∀ x ∈ w, (∃ n : Int, x = (n : ℚ) / 100) ∧
          min_w - 1/200 ≤ x ∧ x ≤ max_w + 1/200) ∧
    (∀ (min_w max_w : ℚ) (m n : Int), min_w = (m : ℚ) / 100 →
        max_w = (n : ℚ) / 100 →
        ∀ (L : Nat) (nz : Bool) (u0 : Nat → ℚ) (uL : Nat → Nat → ℚ)
          (fuel : Nat) (w : List ℚ),
        (∀ k, min_w ≤ u0 k ∧ u0 k < max_w) →
        (∀ i k, min_w ≤ uL i k ∧ uL i k < max_w) →
        sample_weights_C L nz u0 uL fuel = .ok w →
        ∀ x ∈ w, min_w ≤ x ∧ x ≤ max_w) ∧
    (∀ (min_w max_w : ℚ) (L : Nat) (P : ℚ) (nz : Bool) (perm : List Nat)
        (uPos uNeg : Nat → ℚ) (uL : Nat → Nat → ℚ) (fuel : Nat) (w : List ℚ),
        (∀ k, 0 ≤ uPos k ∧ uPos k < max_w) →
        (∀ k, min_w ≤ uNeg k ∧ uNeg k < 0) →
        (∀ i k, min_w ≤ uL i k ∧ uL i k < max_w) →
        sample_with_ratio_C L P nz perm uPos uNeg uL fuel = .ok w →
        ∀ x ∈ w, (∃ n : Int, x = (n : ℚ) / 100) ∧
          min_w - 1/200 ≤ x ∧ x ≤ max_w + 1/200) ∧
    (∀ (min_w max_w : ℚ) (m n : Int), min_w = (m : ℚ) / 100 →
        max_w = (n : ℚ) / 100 →
        ∀ (L : Nat) (P : ℚ) (nz : Bool) (perm : List Nat)
          (uPos uNeg : Nat → ℚ) (uL : Nat → Nat → ℚ) (fuel : Nat)
          (w : List ℚ),
        (∀ k, 0 ≤ uPos k ∧ uPos k < max_w) →
        (∀ k, min_w ≤ uNeg k ∧ uNeg k < 0) →
        (∀ i k, min_w ≤ uL i k ∧ uL i k < max_w) →
        sample_with_ratio_C L P nz perm uPos uNeg uL fuel = .ok w →
        ∀ x ∈ w, min_w ≤ x ∧ x ≤ max_w) := by
  refine ⟨?_, ?_, ?_, ?_, ?_, ?_⟩
  · intro min_w max_w L nz raw0 rawL fuel w h
    have h1 : min_w < max_w + 1 := by
      by_contra hc
      rw [show sample_weights_D min_w max_w L nz raw0 rawL fuel = .valueError
        from by simp only [sample_weights_D, if_neg hc]] at h
      exact absurd h (by simp)
    refine sample_weights_D_pred min_w max_w L nz raw0 rawL fuel w _ ?_ h
    intro r
    have := randintDraw_bounds min_w (max_w + 1) r h1
    omega
  · intro min_w max_w L P nz perm rawPos rawNeg rawL fuel w h
    have h1 : (if nz then (1 : Int) else 0) < max_w + 1 := by
      by_contra hc
      rw [sample_with_ratio_D_err1 min_w max_w L P nz perm rawPos rawNeg rawL
        fuel hc] at h
      exact absurd h (by simp)
    have h2 : min_w < 0 := by
      by_contra hc
      rw [sample_with_ratio_D_err2 min_w max_w L P nz perm rawPos rawNeg rawL
        fuel h1 hc] at h
      exact absurd h (by simp)
    have hlow : (0 : Int) ≤ (if nz then (1 : Int) else 0) := by
      cases nz <;> simp
    refine sample_with_ratio_D_pred min_w max_w L P nz perm rawPos rawNeg rawL
      fuel w _ ?_ ?_ ?_ ?_ h
    · intro r
      have := randintDraw_bounds (if nz then (1 : Int) else 0) (max_w + 1) r h1
      omega
    · intro r
      have := randintDraw_bounds min_w 0 r h2
      omega
    · omega
    · intro r
      have := randintDraw_bounds min_w (max_w + 1) r (by omega)
      omega
  · intro min_w max_w L nz u0 uL fuel w hu0 huL h
    refine sample_weights_C_pred L nz u0 uL fuel w _ ?_ ?_ h
    · intro k
      exact ⟨round2_is_centi (u0 k),
        (round2_bounds min_w max_w (u0 k) (hu0 k).1 (hu0 k).2).1,
        (round2_bounds min_w max_w (u0 k) (hu0 k).1 (hu0 k).2).2⟩
    · intro i k
      exact ⟨round2_is_centi (uL i k),
        (round2_bounds min_w max_w (uL i k) (huL i k).1 (huL i k).2).1,
        (round2_bounds min_w max_w (uL i k) (huL i k).1 (huL i k).2).2⟩
  · intro min_w max_w m n hm hn L nz u0 uL fuel w hu0 huL h
    refine sample_weights_C_pred L nz u0 uL fuel w _ ?_ ?_ h
    · intro k
      exact round2_bounds_aligned min_w max_w (u0 k) m n hm hn (hu0 k).1 (hu0 k).2
    · intro i k
      exact round2_bounds_aligned min_w max_w (uL i k) m n hm hn (huL i k).1
        (huL i k).2
  · intro min_w max_w L P nz perm uPos uNeg uL fuel w hPos hNeg hLoop h
    have hmin0 : min_w < 0 := lt_of_le_of_lt (hNeg 0).1 (hNeg 0).2
    have hmax0 : (0 : ℚ) < max_w := lt_of_le_of_lt (hPos 0).1 (hPos 0).2
    refine sample_with_ratio_C_pred L P nz perm uPos uNeg uL fuel w _
      ?_ ?_ ?_ ?_ h
    · intro k
      have hb := round2_bounds 0 max_w (uPos k) (hPos k).1 (hPos k).2
      exact ⟨round2_is_centi (uPos k), by linarith [hb.1], hb.2⟩
    · intro k
      have hb := round2_bounds min_w 0 (uNeg k) (hNeg k).1 (hNeg k).2
      exact ⟨round2_is_centi (uNeg k), hb.1, by linarith [hb.2]⟩
    · exact ⟨⟨0, by norm_num⟩, by linarith, by linarith⟩
    · intro i k
      have hb := round2_bounds min_w max_w (uL i k) (hLoop i k).1 (hLoop i k).2
      exact ⟨round2_is_centi (uL i k), hb.1, hb.2⟩
  · intro min_w max_w m n hm hn L P nz perm uPos uNeg uL fuel w hPos hNeg
      hLoop h
    have hmin0 : min_w < 0 := lt_of_le_of_lt (hNeg 0).1 (hNeg 0).2
    have hmax0 : (0 : ℚ) < max_w := lt_of_le_of_lt (hPos 0).1 (hPos 0).2
    refine sample_with_ratio_C_pred L P nz perm uPos uNeg uL fuel w _
      ?_ ?_ ?_ ?_ h
    · intro k
      have hb := round2_bounds_aligned 0 max_w (uPos k) 0 n (by norm_num) hn
        (hPos k).1 (hPos k).2
      exact ⟨by linarith [hb.1], hb.2⟩
    · intro k
      have hb := round2_bounds_aligned min_w 0 (uNeg k) m 0 hm (by norm_num)
        (hNeg k).1 (hNeg k).2
      exact ⟨hb.1, by linarith [hb.2]⟩
    · exact ⟨by linarith, by linarith⟩
    · intro i k
      exact round2_bounds_aligned min_w max_w (uL i k) m n hm hn (hLoop i k).1
        (hLoop i k).2

/-- Witness for the amended C4: a terminating discrete run in `[-2, 2]`, a
continuous unconstrained run with aligned bounds `[0, 1]` and draw `1/2`,
and a continuous ratio-constrained run with aligned bounds `[-1, 1]`. -/
theorem claim_C4_witness :
    (∀ x ∈ ([-2, -2] : List Int), (-2 : Int) ≤ x ∧ x ≤ 2) ∧
    (∀ x ∈ ([1/2] : List ℚ), (0 : ℚ) ≤ x ∧ x ≤ 1) ∧
    (∀ x ∈ ([1/2, -1/2] : List ℚ), (-1 : ℚ) ≤ x ∧ x ≤ 1) := by
  refine ⟨?_, ?_, ?_⟩
  · exact claim_C4_amended.1 (-2) 2 2 true (fun _ => 0) (fun _ _ => 0) 3
      [-2, -2] (by decide)
  · refine claim_C4_amended.2.2.2.1 0 1 0 100 (by norm_num) (by norm_num) 1
      false (fun _ => 1/2) (fun _ _ => 0) 0 [1/2] (fun k => by norm_num)
      (fun i k => by norm_num) ?_
    have hfl : ⌊(50 : ℚ)⌋ = 50 := by
      rw [Int.floor_eq_iff]
      constructor <;> norm_num
    have h50 : roundE (50 : ℚ) = 50 := by
      simp only [roundE, hfl]
      norm_num
    have hr2 : round2 (1/2 : ℚ) = 1/2 := by
      unfold round2
      rw [show (100 : ℚ) * (1/2) = 50 from by norm_num, h50]
      norm_num
    unfold sample_weights_C
    rw [if_neg (by simp)]
    rw [show List.range 1 = [0] from rfl]
    simp only [List.map_cons, List.map_nil, hr2]
  · exact claim_C4_amended.2.2.2.2.2 (-1) 1 (-100) 100 (by norm_num)
      (by norm_num) 2 50 false [0, 1] (fun _ => 1/2) (fun _ => -1/2)
      (fun _ _ => 0) 1 [1/2, -1/2] (fun k => by norm_num)
      (fun k => by norm_num) (fun i k => by norm_num) (ratioC_demo false)

end WBS
